import Mathlib

/-!
# Verification of the libFuzzer driver layer (`FuzzerDriver.cpp`)

This file gives a shallow embedding in Lean 4 of the algorithms implemented
directly in `FuzzerDriver.cpp` — flag-value extraction, the hand-rolled
decimal parser, flag parsing, seed-input splitting, the crash-cleansing byte
search, the merge-mode precondition check, the worker-pool job counter, and
the dictionary analyzer — and proves properties about them.

Conventions:
* C strings / `std::string` are modelled as `List Char`;
* byte buffers (`Unit`, `std::vector<uint8_t>`) are modelled as `List Nat`
  whose elements are byte values (< 256 in all uses);
* machine integers are modelled as `Int`/`Nat`, with explicit reductions
  modulo `2 ^ 32` where a narrowing cast occurs in the source;
* external collaborators (subprocess execution, coverage collection) are
  modelled as explicit function parameters, so every definition is a pure,
  executable function of its inputs.
-/

namespace FuzzerDriver

/-! ## FlagValue (FuzzerDriver.cpp lines 122-128)

```
static const char *FlagValue(const char *Param, const char *Name) {
  size_t Len = strlen(Name);
  if (Param[0] == '-' && strstr(Param + 1, Name) == Param + 1 &&
      Param[Len + 1] == '=')
      return &Param[Len + 2];
  return nullptr;
}
```
`strstr(Param + 1, Name) == Param + 1` holds exactly when the first
occurrence of `Name` in `Param + 1` is at offset 0, i.e. when `Name` is a
prefix of `Param + 1` (modelled by `r.take name.length = name`);
`Param[Len + 1] == '='` then inspects the character immediately after that
prefix (the terminating `'\0'` if the string ends there, which is encoded
here by `drop` producing `[]`). The returned pointer `&Param[Len + 2]` is
the tail after the `'='`, modelled as `some tail`. -/
def flagValue (param name : List Char) : Option (List Char) :=
  match param with
  | [] => none
  | c :: r =>
    if c = '-' then
      if r.take name.length = name then
        match r.drop name.length with
        | [] => none
        | e :: tail => if e = '=' then some tail else none
      else none
    else none

/-! ## MyStol (FuzzerDriver.cpp lines 132-146)

```
static long MyStol(const char *Str) {
  long Res = 0;
  long Sign = 1;
  if (*Str == '-') {
    Str++;
    Sign = -1;
  }
  for (size_t i = 0; Str[i]; i++) {
    char Ch = Str[i];
    if (Ch < '0' || Ch > '9')
      return Res;
    Res = Res * 10 + (Ch - '0');
  }
  return Res * Sign;
}
```
The accumulating loop is `myStolLoop`; its boolean result records whether
the loop ran to the end of the string (`true`: the function then returns
`Res * Sign`) or returned early at the first non-digit (`false`: the
function then returns `Res` without applying the sign). `'0'` and `'9'`
are the char codes 48 and 57. `long` arithmetic is modelled by unbounded
`Int` (the driver only parses short flag values; signed overflow is
undefined behaviour in the source). -/
def myStolLoop : List Char → Int → Int × Bool
  | [], res => (res, true)
  | ch :: s, res =>
    if ch.toNat < 48 ∨ 57 < ch.toNat then (res, false)
    else myStolLoop s (res * 10 + ((ch.toNat : Int) - 48))

def myStol (s : List Char) : Int :=
  let sign : Int := if s.head? = some '-' then -1 else 1
  let s' : List Char := if s.head? = some '-' then s.tail else s
  let r := myStolLoop s' 0
  if r.2 then r.1 * sign else r.1

/-- The decimal value of a digit string, as accumulated by `myStolLoop`. -/
def digitsVal (ds : List Char) : Int :=
  ds.foldl (fun acc d => acc * 10 + ((d.toNat : Int) - 48)) 0

lemma myStolLoop_digits (c : Char) (rest : List Char)
    (hc : c.toNat < 48 ∨ 57 < c.toNat) :
    ∀ (ds : List Char) (acc : Int), (∀ d ∈ ds, 48 ≤ d.toNat ∧ d.toNat ≤ 57) →
      myStolLoop (ds ++ c :: rest) acc =
        (ds.foldl (fun a d => a * 10 + ((d.toNat : Int) - 48)) acc, false) := by
  intro ds
  induction ds with
  | nil =>
    intro acc _
    simp [myStolLoop, hc]
  | cons d ds ih =>
    intro acc hall
    have hd := hall d (List.mem_cons_self d ds)
    have hnd : ¬ (d.toNat < 48 ∨ 57 < d.toNat) := by omega
    simp only [List.cons_append, myStolLoop, if_neg hnd, List.foldl_cons]
    exact ih _ (fun x hx => hall x (List.mem_cons_of_mem d hx))

lemma digitsVal_nonneg_aux :
    ∀ (ds : List Char) (acc : Int), 0 ≤ acc →
      (∀ d ∈ ds, 48 ≤ d.toNat ∧ d.toNat ≤ 57) →
      0 ≤ ds.foldl (fun a d => a * 10 + ((d.toNat : Int) - 48)) acc := by
  intro ds
  induction ds with
  | nil => intro acc hacc _; simpa using hacc
  | cons d ds ih =>
    intro acc hacc hall
    have hd := hall d (List.mem_cons_self d ds)
    simp only [List.foldl_cons]
    refine ih _ ?_ (fun x hx => hall x (List.mem_cons_of_mem d hx))
    have h48 : (48 : Int) ≤ (d.toNat : Int) := by exact_mod_cast hd.1
    nlinarith

/-- C6: `FlagValue(Param, Name)` returns a pointer to the text after `'='`
exactly when `Param` is a single `'-'`, then `Name` character-for-character,
then `'='`; in particular `FlagValue("-foo=bar","foo")` returns `"bar"`,
`FlagValue("--foo=bar","foo")` returns null, and
`FlagValue("-foobar=x","foo")` returns null. -/
theorem flagValue_exact_match (P N rest : List Char) :
    (flagValue P N = some rest ↔ P = '-' :: (N ++ '=' :: rest)) ∧
    flagValue "-foo=bar".toList "foo".toList = some "bar".toList ∧
    flagValue "--foo=bar".toList "foo".toList = none ∧
    flagValue "-foobar=x".toList "foo".toList = none := by
  refine ⟨?_, by decide, by decide, by decide⟩
  constructor
  · intro h
    match P with
    | [] => simp [flagValue] at h
    | c :: r =>
      simp only [flagValue] at h
      split_ifs at h with hc htake
      · rcases hdrop : r.drop N.length with _ | ⟨e, tail⟩
        · rw [hdrop] at h
          exact absurd h (by simp)
        · rw [hdrop] at h
          have h' : (if e = '=' then some tail else none) = some rest := h
          clear h
          rename' h' => h
          split_ifs at h with he
          subst hc; subst he
          simp only [Option.some.injEq] at h
          rw [← h]
          have hr : r = N ++ '=' :: tail := by
            conv_lhs => rw [← List.take_append_drop N.length r, htake, hdrop]
          rw [hr]
  · intro h
    subst h
    have htake : (N ++ '=' :: rest).take N.length = N := List.take_left N _
    have hdrop : (N ++ '=' :: rest).drop N.length = '=' :: rest :=
      List.drop_left N _
    simp [flagValue, htake, hdrop]

/-- Witness for `flagValue_exact_match` at a concrete input: the
characterization applied to `Param = "-a=b"`, `Name = "a"`. -/
theorem flagValue_exact_match_witness :
    flagValue "-a=b".toList "a".toList = some "b".toList :=
  (flagValue_exact_match "-a=b".toList "a".toList "b".toList).1.mpr (by decide)

/-- C7: the boundary cases of `MyStol`: `MyStol("")` returns 0,
`MyStol("-")` returns 0, `MyStol("123x4")` returns 123 (parsing stops at
the first non-digit and returns what was parsed so far, with no error),
and `MyStol("-7")` returns -7. -/
theorem myStol_boundaries :
    myStol "".toList = 0 ∧ myStol "-".toList = 0 ∧
    myStol "123x4".toList = 123 ∧ myStol "-7".toList = -7 := by
  refine ⟨by decide, by decide, by decide, by decide⟩

/-- C10: for every string made of a leading `'-'`, one or more digits, and
then a non-digit character, `MyStol` returns the (non-negative) magnitude
parsed before the non-digit, not its negation: the early return taken on
the first non-digit skips the final multiplication by the sign, so the
recorded `'-'` is silently discarded; e.g. `MyStol("-12x")` returns 12. -/
theorem myStol_sign_dropped_on_early_return (ds : List Char) (c : Char)
    (rest : List Char) (hne : ds ≠ [])
    (hds : ∀ d ∈ ds, 48 ≤ d.toNat ∧ d.toNat ≤ 57)
    (hc : c.toNat < 48 ∨ 57 < c.toNat) :
    myStol ('-' :: (ds ++ c :: rest)) = digitsVal ds ∧ 0 ≤ digitsVal ds ∧
    myStol "-12x".toList = 12 := by
  refine ⟨?_, digitsVal_nonneg_aux ds 0 le_rfl hds, by decide⟩
  have hloop := myStolLoop_digits c rest hc ds 0 hds
  simp only [myStol, List.head?_cons, Option.some.injEq, eq_self_iff_true,
    if_true, List.tail_cons, hloop]
  rfl

/-- Witness for `myStol_sign_dropped_on_early_return` at the concrete input
`"-12x"` (digits `"12"`, non-digit `'x'`). -/
theorem myStol_sign_dropped_witness :
    myStol ('-' :: ("12".toList ++ 'x' :: [])) = digitsVal "12".toList ∧
    0 ≤ digitsVal "12".toList ∧ myStol "-12x".toList = 12 :=
  myStol_sign_dropped_on_early_return "12".toList 'x' [] (by decide)
    (by decide) (by decide)

/-! ## ParseSeedInuts (FuzzerDriver.cpp lines 625-646)

```
std::vector<std::string> ParseSeedInuts(const char *seed_inputs) {
  std::vector<std::string> Files;
  if (!seed_inputs) return Files;
  std::string SeedInputs;
  if (Flags.seed_inputs[0] == '@')
    SeedInputs = FileToString(Flags.seed_inputs + 1); // File contains list.
  else
    SeedInputs = Flags.seed_inputs; // seed_inputs contains the list.
  if (SeedInputs.empty()) {
    Printf("seed_inputs is empty or @file does not exist.\n");
    exit(1);
  }
  // Parse SeedInputs.
  size_t comma_pos = 0;
  while ((comma_pos = SeedInputs.find_last_of(',')) != std::string::npos) {
    Files.push_back(SeedInputs.substr(comma_pos + 1));
    SeedInputs = SeedInputs.substr(0, comma_pos);
  }
  Files.push_back(SeedInputs);
  return Files;
}
```
`find_last_of(',')` locates the last comma; `splitLastComma` returns the
text before and after that comma (`none` when the string has no comma).
The recursion preferring the result on `rest` makes it pick the rightmost
comma, exactly as `find_last_of` does. -/
def splitLastComma : List Char → Option (List Char × List Char)
  | [] => none
  | c :: rest =>
    match splitLastComma rest with
    | some (pre, post) => some (c :: pre, post)
    | none => if c = ',' then some ([], rest) else none

lemma splitLastComma_shape :
    ∀ (s pre post : List Char), splitLastComma s = some (pre, post) →
      s = pre ++ ',' :: post := by
  intro s
  induction s with
  | nil => intro pre post h; simp [splitLastComma] at h
  | cons c rest ih =>
    intro pre post h
    simp only [splitLastComma] at h
    rcases hr : splitLastComma rest with _ | ⟨pre', post'⟩
    · rw [hr] at h
      split_ifs at h with hc
      · simp only [Option.some.injEq, Prod.mk.injEq] at h
        rw [← h.1, ← h.2, hc]
        rfl
    · rw [hr] at h
      simp only [Option.some.injEq, Prod.mk.injEq] at h
      rw [← h.1, ← h.2]
      simpa using ih pre' post' hr

lemma splitLastComma_length (s pre post : List Char)
    (h : splitLastComma s = some (pre, post)) : pre.length < s.length := by
  have := splitLastComma_shape s pre post h
  subst this
  simp

/-- The right-to-left comma-splitting loop of `ParseSeedInuts`
(lines 639-644): while the string has a comma, push the text after the
last comma and keep the text before it; finally push the remainder. -/
def parseSeedList (s : List Char) : List (List Char) :=
  match h : splitLastComma s with
  | some pp => pp.2 :: parseSeedList pp.1
  | none => [s]
termination_by s.length
decreasing_by
  exact splitLastComma_length s pp.1 pp.2 (by rw [h])

/-- The string actually split by `ParseSeedInuts`: when the flag value
starts with `'@'` the list is read from the named file (modelled by the
explicit function `fileToString`), otherwise the flag value itself. -/
def seedSpecString (s : List Char)
    (fileToString : List Char → List Char) : List Char :=
  match s with
  | c :: rest => if c = '@' then fileToString rest else c :: rest
  | [] => []

/-- The whole of `ParseSeedInuts`: the `seed_inputs` flag may be null
(the function returns the empty list), and an empty resulting spec is
fatal (`exit(1)`, modelled as `none`). -/
def parseSeedInuts (seedInputs : Option (List Char))
    (fileToString : List Char → List Char) : Option (List (List Char)) :=
  match seedInputs with
  | none => some []
  | some s =>
    if seedSpecString s fileToString = [] then none
    else some (parseSeedList (seedSpecString s fileToString))

/-- Comma-join of a list of strings, the textual form split by the loop. -/
def joinComma : List (List Char) → List Char
  | [] => []
  | [p] => p
  | p :: ps => p ++ ',' :: joinComma ps

lemma splitLastComma_of_noComma :
    ∀ (s : List Char), (∀ c ∈ s, c ≠ ',') → splitLastComma s = none := by
  intro s
  induction s with
  | nil => intro _; rfl
  | cons c rest ih =>
    intro h
    have hc : c ≠ ',' := h c (List.mem_cons_self c rest)
    have hr := ih (fun x hx => h x (List.mem_cons_of_mem c hx))
    simp [splitLastComma, hr, hc]

lemma splitLastComma_append (a b : List Char) (hb : ∀ c ∈ b, c ≠ ',') :
    splitLastComma (a ++ ',' :: b) = some (a, b) := by
  induction a with
  | nil =>
    simp [splitLastComma, splitLastComma_of_noComma b hb]
  | cons x a ih =>
    have hstep : splitLastComma ((x :: a) ++ ',' :: b) =
        match splitLastComma (a ++ ',' :: b) with
        | some (pre, post) => some (x :: pre, post)
        | none => if x = ',' then some ([], a ++ ',' :: b) else none := rfl
    rw [hstep, ih]

lemma joinComma_cons (p : List Char) (ps : List (List Char)) (hps : ps ≠ []) :
    joinComma (p :: ps) = p ++ ',' :: joinComma ps := by
  match ps with
  | [] => exact absurd rfl hps
  | q :: qs => rfl

lemma parseSeedList_noComma (s : List Char) (hs : ∀ c ∈ s, c ≠ ',') :
    parseSeedList s = [s] := by
  rw [parseSeedList]
  split
  · rename_i pp heq
    rw [splitLastComma_of_noComma s hs] at heq
    exact absurd heq (by simp)
  · rfl

lemma joinComma_append_last (ps : List (List Char)) (q : List Char)
    (hps : ps ≠ []) : joinComma (ps ++ [q]) = joinComma ps ++ ',' :: q := by
  induction ps with
  | nil => exact absurd rfl hps
  | cons p ps ih =>
    match ps with
    | [] => rfl
    | r :: rs =>
      rw [List.cons_append, joinComma_cons p ((r :: rs) ++ [q]) (by simp),
        ih (by simp), joinComma_cons p (r :: rs) (by simp)]
      simp

lemma parseSeedList_join (parts : List (List Char)) (hne : parts ≠ [])
    (hall : ∀ p ∈ parts, ∀ c ∈ p, c ≠ ',') :
    parseSeedList (joinComma parts) = parts.reverse := by
  induction parts using List.reverseRecOn with
  | nil => exact absurd rfl hne
  | append_singleton ps q ih =>
    match ps with
    | [] =>
      simp only [List.nil_append, List.reverse_singleton]
      exact parseSeedList_noComma q (hall q (by simp))
    | p :: ps' =>
      have hq : ∀ c ∈ q, c ≠ ',' := hall q (by simp)
      rw [joinComma_append_last (p :: ps') q (by simp), parseSeedList,
        List.reverse_append]
      have hsplit := splitLastComma_append (joinComma (p :: ps')) q hq
      split
      · rename_i pp heq
        rw [hsplit] at heq
        have hpp : pp = (joinComma (p :: ps'), q) := by
          injection heq with h1
          exact h1.symm
        subst hpp
        have hmem : ∀ x ∈ p :: ps', x ∈ p :: ps' ++ [q] := by
          intro x hx
          rcases List.mem_cons.1 hx with h1 | h1
          · exact List.mem_cons.2 (Or.inl h1)
          · exact List.mem_cons.2 (Or.inr (List.mem_append_left [q] h1))
        have hrec := ih (by simp) (fun x hx => hall x (hmem x hx))
        rw [hrec]
        simp
      · rename_i heq
        rw [hsplit] at heq
        exact absurd heq (by simp)

/-- C8: `ParseSeedInuts("a,b,c")` returns `{c, b, a}`; in general, for every
non-empty comma-separated spec (one that is not a `@file` reference), the
output list is the reverse of the textual order of its elements, produced
by repeated right-to-left splitting on `','`. -/
theorem parseSeedInuts_reverse_order (parts : List (List Char))
    (fileToString : List Char → List Char) (hne : parts ≠ [])
    (hall : ∀ p ∈ parts, ∀ c ∈ p, c ≠ ',')
    (hjoin : joinComma parts ≠ [])
    (hat : (joinComma parts).head? ≠ some '@') :
    parseSeedInuts (some (joinComma parts)) fileToString =
      some parts.reverse ∧
    parseSeedList "a,b,c".toList = ["c".toList, "b".toList, "a".toList] := by
  constructor
  · have hspec : seedSpecString (joinComma parts) fileToString =
        joinComma parts := by
      rcases hj : joinComma parts with _ | ⟨c, rest⟩
      · rfl
      · have hc : c ≠ '@' := by
          rw [hj] at hat
          simpa using hat
        simp [seedSpecString, hc]
    simp only [parseSeedInuts, hspec, if_neg hjoin]
    rw [parseSeedList_join parts hne hall]
  · exact parseSeedList_join ["a".toList, "b".toList, "c".toList]
      (by simp) (by decide)

/-- Witness for `parseSeedInuts_reverse_order` at the concrete spec
`"a,b,c"` (elements `a`, `b`, `c`; identity file reader, unused). -/
theorem parseSeedInuts_reverse_order_witness :
    parseSeedInuts (some (joinComma ["a".toList, "b".toList, "c".toList]))
      (fun s => s) = some ["c".toList, "b".toList, "a".toList] :=
  (parseSeedInuts_reverse_order ["a".toList, "b".toList, "c".toList]
    (fun s => s) (by decide) (by decide) (by decide) (by decide)).1

/-! ## Merge precondition check (FuzzerDriver.cpp lines 523-557)

```
void Merge(Fuzzer *F, FuzzingOptions &Options,
           const std::vector<std::string> &Args,
           const std::vector<std::string> &Corpora, const char *CFPathOrNull) {
  if (Corpora.size() < 2) {
    Printf("INFO: Merge requires two or more corpus dirs\n");
    exit(0);
  }
  ...
  exit(0);
}
```
Only the guard decides what happens with fewer than two corpus
directories; the rest of `Merge` calls the external crash-resistant merge
primitive and always ends in `exit(0)`. `mergeGuard` returns
`some (message, exitStatus)` when `Merge` terminates the process at the
guard (before touching any corpus), and `none` when it proceeds to the
actual merge. -/
def mergeRequiresMsg : List Char :=
  "INFO: Merge requires two or more corpus dirs\n".toList

def mergeGuard (Corpora : List (List Char)) : Option (List Char × Int) :=
  if Corpora.length < 2 then some (mergeRequiresMsg, 0) else none

/-- C3 counterexample: with a single corpus directory, `Merge` does not
print an `ERROR:` line and does not exit with status 1; it prints an
`INFO:` line and exits with status 0. This refutes the claim that the
wrong number of positionals for merge mode yields a one-line `ERROR:`
message and termination status 1. -/
theorem merge_few_dirs_counterexample :
    mergeGuard ["d1".toList] = some (mergeRequiresMsg, 0) ∧
    mergeRequiresMsg.take 6 ≠ "ERROR:".toList ∧
    mergeRequiresMsg.take 5 = "INFO:".toList ∧ (0 : Int) ≠ 1 ∧
    ¬ (∀ Corpora : List (List Char), Corpora.length < 2 →
        ∃ msg, mergeGuard Corpora = some (msg, 1) ∧
          msg.take 6 = "ERROR:".toList) := by
  refine ⟨by decide, by decide, by decide, by decide, ?_⟩
  intro hclaim
  obtain ⟨msg, hm, herr⟩ := hclaim ["d1".toList] (by decide)
  rw [show mergeGuard ["d1".toList] = some (mergeRequiresMsg, 0) from by decide]
    at hm
  have : (0 : Int) = 1 := by
    injection hm with h1
    exact congrArg Prod.snd h1
  exact absurd this (by decide)

/-- C3 amended: when merge mode is invoked with fewer than two corpus
directories, the driver prints the one-line `INFO: Merge requires two or
more corpus dirs` message and terminates the process with exit status 0
(the guard fires exactly when fewer than two directories are given). -/
theorem merge_few_dirs_info_exit_zero (Corpora : List (List Char))
    (h : Corpora.length < 2) :
    mergeGuard Corpora = some (mergeRequiresMsg, 0) ∧
    mergeRequiresMsg.take 5 = "INFO:".toList := by
  exact ⟨by simp [mergeGuard, h], by decide⟩

/-- Witness for `merge_few_dirs_info_exit_zero` with one corpus dir. -/
theorem merge_few_dirs_info_exit_zero_witness :
    mergeGuard ["c1".toList] = some (mergeRequiresMsg, 0) ∧
    mergeRequiresMsg.take 5 = "INFO:".toList :=
  merge_few_dirs_info_exit_zero ["c1".toList] (by decide)

/-! ## CleanseCrashInput (FuzzerDriver.cpp lines 367-420)

The byte-substitution search at the heart of `-cleanse_crash`:

```
const std::vector<uint8_t> ReplacementBytes = {' ', 0xff};
for (int NumAttempts = 0; NumAttempts < 5; NumAttempts++) {
  bool Changed = false;
  for (size_t Idx = 0; Idx < Size; Idx++) {
    uint8_t OriginalByte = U[Idx];
    if (ReplacementBytes.end() != std::find(ReplacementBytes.begin(),
                                            ReplacementBytes.end(),
                                            OriginalByte))
      continue;
    for (auto NewByte : ReplacementBytes) {
      U[Idx] = NewByte;
      WriteToFile(U, TmpFilePath);
      auto ExitCode = ExecuteCommand(Cmd);
      RemoveFile(TmpFilePath);
      if (!ExitCode) {
        U[Idx] = OriginalByte;
      } else {
        Changed = true;
        WriteToFile(U, OutputFilePath);
        break;
      }
    }
  }
  if (!Changed) break;
}
```

The subprocess is modelled by `exec : List Nat → Int`, giving the exit
code of the base command run on the buffer that was just written to the
temporary file. Each write-and-run is recorded as a `CleanseTrial`:
`buf` is the buffer written and executed (`U` with `U[idx] := cand`) and
`after` the buffer once the step committed (`after = buf`) or reverted
(`after` = previous buffer). -/
structure CleanseTrial where
  idx : Nat
  cand : Nat
  buf : List Nat
  after : List Nat
deriving DecidableEq

def replacementBytes : List Nat := [32, 255]

/-- The candidate loop `for (auto NewByte : ReplacementBytes)` at one
byte index: returns the buffer afterwards, whether a replacement was
committed, and the recorded trials. -/
def cleanseByte (exec : List Nat → Int) (U : List Nat) (idx orig : Nat) :
    List Nat → List Nat × Bool × List CleanseTrial
  | [] => (U, false, [])
  | b :: bs =>
    let U1 := U.set idx b
    if exec U1 = 0 then
      let U2 := U1.set idx orig
      let r := cleanseByte exec U2 idx orig bs
      (r.1, r.2.1, ⟨idx, b, U1, U2⟩ :: r.2.2)
    else (U1, true, [⟨idx, b, U1, U1⟩])

/-- The index loop `for (size_t Idx = 0; Idx < Size; Idx++)`; `n` counts
the remaining indices (`Size - idx`), making the recursion structural.
An index whose current byte is already one of the replacement bytes is
skipped entirely. -/
def cleansePassAux (exec : List Nat → Int) :
    List Nat → Nat → Nat → Bool → List Nat × Bool × List CleanseTrial
  | U, _, 0, ch => (U, ch, [])
  | U, idx, n + 1, ch =>
    let orig := U.getD idx 0
    if orig ∈ replacementBytes then cleansePassAux exec U (idx + 1) n ch
    else
      let r := cleanseByte exec U idx orig replacementBytes
      let r2 := cleansePassAux exec r.1 (idx + 1) n (ch || r.2.1)
      (r2.1, r2.2.1, r.2.2 ++ r2.2.2)

/-- One full pass over all byte indices (`Changed` starts false). -/
def cleansePass (exec : List Nat → Int) (U : List Nat) :
    List Nat × Bool × List CleanseTrial :=
  cleansePassAux exec U 0 U.length false

/-- The outer loop `for (NumAttempts = 0; NumAttempts < 5; ...)`: repeat
passes while the previous pass changed something, at most `n` times. -/
def cleanseAttempts (exec : List Nat → Int) : Nat → List Nat →
    List Nat × List CleanseTrial
  | 0, U => (U, [])
  | k + 1, U =>
    let r := cleansePass exec U
    if r.2.1 then
      let r2 := cleanseAttempts exec k r.1
      (r2.1, r.2.2 ++ r2.2)
    else (r.1, r.2.2)

/-- The whole cleansing search on a loaded buffer: five attempts. -/
def cleanseCrashInput (exec : List Nat → Int) (U : List Nat) :
    List Nat × List CleanseTrial :=
  cleanseAttempts exec 5 U

lemma getD_set_ne {α : Type} {d : α} : ∀ (U : List α) (i j : Nat) (v : α),
    i ≠ j → (U.set i v).getD j d = U.getD j d := by
  intro U
  induction U with
  | nil => intro i j v _; simp
  | cons x xs ih =>
    intro i j v hij
    match i, j with
    | 0, 0 => exact absurd rfl hij
    | 0, j + 1 => simp [List.set]
    | i + 1, 0 => simp [List.set]
    | i + 1, j + 1 =>
      simp only [List.set, List.getD_cons_succ]
      exact ih i j v (by omega)

lemma set_getD_self : ∀ (U : List Nat) (i : Nat),
    U.set i (U.getD i 0) = U := by
  intro U
  induction U with
  | nil => intro i; rfl
  | cons x xs ih =>
    intro i
    match i with
    | 0 => rfl
    | i + 1 =>
      simp only [List.getD_cons_succ, List.set]
      rw [ih i]

lemma cleanseByte_trials_idx (exec : List Nat → Int) (idx orig : Nat) :
    ∀ (cands : List Nat) (U : List Nat),
      ∀ t ∈ (cleanseByte exec U idx orig cands).2.2, t.idx = idx := by
  intro cands
  induction cands with
  | nil => intro U t ht; simp [cleanseByte] at ht
  | cons b bs ih =>
    intro U t ht
    simp only [cleanseByte] at ht
    split_ifs at ht with hex
    · simp only [List.mem_cons] at ht
      rcases ht with h1 | h1
      · rw [h1]
      · exact ih _ t h1
    · simp only [List.mem_singleton] at ht
      rw [ht]

lemma cleanseByte_trials_ne_nil (exec : List Nat → Int) (U : List Nat)
    (idx orig b : Nat) (bs : List Nat) :
    (cleanseByte exec U idx orig (b :: bs)).2.2 ≠ [] := by
  simp only [cleanseByte]
  split_ifs with hex
  · simp
  · simp

lemma cleanseByte_preserves_ne (exec : List Nat → Int) (idx orig : Nat) :
    ∀ (cands : List Nat) (U : List Nat) (j : Nat), idx ≠ j →
      (cleanseByte exec U idx orig cands).1.getD j 0 = U.getD j 0 := by
  intro cands
  induction cands with
  | nil => intro U j _; rfl
  | cons b bs ih =>
    intro U j hj
    simp only [cleanseByte]
    split_ifs with hex
    · rw [ih _ j hj, List.set_set, getD_set_ne _ _ _ _ hj]
    · exact getD_set_ne _ _ _ _ hj

lemma cleansePassAux_trials_range (exec : List Nat → Int) :
    ∀ (n : Nat) (U : List Nat) (idx : Nat) (ch : Bool),
      ∀ t ∈ (cleansePassAux exec U idx n ch).2.2,
        idx ≤ t.idx ∧ t.idx < idx + n := by
  intro n
  induction n with
  | zero => intro U idx ch t ht; simp [cleansePassAux] at ht
  | succ n ih =>
    intro U idx ch t ht
    simp only [cleansePassAux] at ht
    split_ifs at ht with hskip
    · have := ih U (idx + 1) ch t ht
      omega
    · simp only [List.mem_append] at ht
      rcases ht with h1 | h1
      · have := cleanseByte_trials_idx exec idx _ replacementBytes U t h1
        omega
      · have := ih _ (idx + 1) _ t h1
        omega

lemma cleansePassAux_trial_iff (exec : List Nat → Int) :
    ∀ (n : Nat) (U : List Nat) (idx : Nat) (ch : Bool) (i : Nat),
      idx ≤ i → i < idx + n →
      ((∃ t ∈ (cleansePassAux exec U idx n ch).2.2, t.idx = i) ↔
        U.getD i 0 ∉ replacementBytes) := by
  intro n
  induction n with
  | zero => intro U idx ch i h1 h2; omega
  | succ n ih =>
    intro U idx ch i h1 h2
    simp only [cleansePassAux]
    split_ifs with hskip
    · by_cases hi : i = idx
      · subst hi
        constructor
        · rintro ⟨t, ht, hti⟩
          have := cleansePassAux_trials_range exec n U (i + 1) ch t ht
          omega
        · intro habs
          exact absurd hskip habs
      · exact ih U (idx + 1) ch i (by omega) (by omega)
    · by_cases hi : i = idx
      · subst hi
        constructor
        · intro _
          exact hskip
        · intro _
          rcases hnil : (cleanseByte exec U i (U.getD i 0)
              replacementBytes).2.2 with _ | ⟨t, ts⟩
          · exact absurd hnil
              (cleanseByte_trials_ne_nil exec U i (U.getD i 0) 32 [255])
          · have hmem : t ∈ (cleanseByte exec U i (U.getD i 0)
                replacementBytes).2.2 := by
              rw [hnil]
              exact List.mem_cons_self t ts
            refine ⟨t, ?_, ?_⟩
            · simp
            · exact cleanseByte_trials_idx exec i (U.getD i 0)
                replacementBytes U t hmem
      · have hpres := cleanseByte_preserves_ne exec idx (U.getD idx 0)
          replacementBytes U i (by omega)
        have hrec := ih (cleanseByte exec U idx (U.getD idx 0)
          replacementBytes).1 (idx + 1)
          (ch || (cleanseByte exec U idx (U.getD idx 0)
            replacementBytes).2.1) i (by omega) (by omega)
        rw [hpres] at hrec
        rw [← hrec]
        constructor
        · rintro ⟨t, ht, hti⟩
          simp only [List.mem_append] at ht
          rcases ht with hb | hb
          · have := cleanseByte_trials_idx exec idx (U.getD idx 0)
              replacementBytes U t hb
            omega
          · exact ⟨t, hb, hti⟩
        · rintro ⟨t, ht, hti⟩
          have hmem : t ∈ (cleanseByte exec U idx (U.getD idx 0)
                replacementBytes).2.2 ++
              (cleansePassAux exec (cleanseByte exec U idx (U.getD idx 0)
                replacementBytes).1 (idx + 1) n
                (ch || (cleanseByte exec U idx (U.getD idx 0)
                  replacementBytes).2.1)).2.2 :=
            List.mem_append_right _ ht
          exact ⟨t, hmem, hti⟩

/-- C2 counterexample: a byte whose original value is `0x20` does not get
the `0xFF` candidate tried (and vice versa): the index is skipped entirely
before the candidate loop. On the buffer `[0x20]`, with a subprocess that
never crashes, no trial at all is performed, refuting the claim that
candidate `b` is skipped only when `U[i] == b`. -/
theorem cleanse_candidate_skip_counterexample :
    (cleanseCrashInput (fun _ => 0) [32]).2 = [] ∧
    ¬ (∀ (exec : List Nat → Int) (U : List Nat) (i b : Nat)
        (h : i < U.length), b ∈ replacementBytes → U.get ⟨i, h⟩ ≠ b →
        ∃ t ∈ (cleanseCrashInput exec U).2, t.idx = i ∧ t.cand = b) := by
  refine ⟨by decide, ?_⟩
  intro hclaim
  obtain ⟨t, ht, _⟩ := hclaim (fun _ => 0) [32] 0 255 (by decide)
    (by decide) (by decide)
  rw [show (cleanseCrashInput (fun _ => 0) [32]).2 = [] from by decide] at ht
  exact absurd ht (by simp)

/-- C2 amended: in a cleansing pass over buffer `U`, byte index `i` is
trialed (some candidate is written and run) if and only if `U[i]` is not
itself one of the replacement bytes `{0x20, 0xFF}`; an index whose byte
already equals either replacement byte is skipped entirely, before the
candidate loop. -/
theorem cleansePass_trial_iff (exec : List Nat → Int) (U : List Nat)
    (i : Nat) (h : i < U.length) :
    (∃ t ∈ (cleansePass exec U).2.2, t.idx = i) ↔
      U.get ⟨i, h⟩ ∉ replacementBytes := by
  have hgd : U.getD i 0 = U.get ⟨i, h⟩ := by
    rw [List.getD_eq_getElem?_getD, List.getElem?_eq_getElem h]
    rfl
  rw [← hgd]
  exact cleansePassAux_trial_iff exec U.length U 0 false i (by omega)
    (by omega)

/-- Witness for `cleansePass_trial_iff`: on the buffer `[65]` (byte `'A'`,
not a replacement byte) with a never-crashing subprocess, index 0 is
trialed. -/
theorem cleansePass_trial_iff_witness :
    ∃ t ∈ (cleansePass (fun _ => 0) [65]).2.2, t.idx = 0 :=
  (cleansePass_trial_iff (fun _ => 0) [65] 0 (by decide)).mpr (by decide)

/-- The step relation of the cleansing invariant: after a step the buffer
either equals its previous value (the replacement was reverted) or the
base command run on its current contents exits non-zero (the replacement
was committed precisely because the crash reproduced). -/
def cleanseStep (exec : List Nat → Int) (a b : List Nat) : Prop :=
  b = a ∨ exec b ≠ 0

lemma chain_glue {α : Type} (R : α → α → Prop) :
    ∀ (l1 l2 : List α) (U M : α),
      List.Chain' R (U :: l1) → l1.getLastD U = M → List.Chain' R (M :: l2) →
      List.Chain' R (U :: (l1 ++ l2)) ∧
        (l1 ++ l2).getLastD U = l2.getLastD M := by
  intro l1
  induction l1 with
  | nil =>
    intro l2 U M _ hlast h2
    have hUM : U = M := hlast
    subst hUM
    exact ⟨h2, rfl⟩
  | cons x l1 ih =>
    intro l2 U M hchain hlast h2
    have hcc := List.chain'_cons.1 hchain
    have hlast' : l1.getLastD x = M := by
      rw [List.getLastD_cons] at hlast
      exact hlast
    obtain ⟨hc, hl⟩ := ih l2 x M hcc.2 hlast' h2
    refine ⟨List.chain'_cons.2 ⟨hcc.1, hc⟩, ?_⟩
    rw [List.cons_append, List.getLastD_cons]
    exact hl

lemma cleanseByte_chain (exec : List Nat → Int) (idx orig : Nat) :
    ∀ (cands : List Nat) (U : List Nat), U.set idx orig = U →
      List.Chain' (cleanseStep exec)
        (U :: ((cleanseByte exec U idx orig cands).2.2.map
          CleanseTrial.after)) ∧
      ((cleanseByte exec U idx orig cands).2.2.map
        CleanseTrial.after).getLastD U = (cleanseByte exec U idx orig cands).1
    := by
  intro cands
  induction cands with
  | nil => intro U _; exact ⟨List.chain'_singleton U, rfl⟩
  | cons b bs ih =>
    intro U horig
    simp only [cleanseByte]
    split_ifs with hex
    · have hU2 : (U.set idx b).set idx orig = U := by
        rw [List.set_set, horig]
      rw [hU2]
      obtain ⟨hc, hl⟩ := ih U horig
      constructor
      · simp only [List.map_cons]
        exact List.chain'_cons.2 ⟨Or.inl rfl, hc⟩
      · simp only [List.map_cons, List.getLastD_cons]
        exact hl
    · constructor
      · simp only [List.map_cons, List.map_nil]
        exact List.chain'_cons.2 ⟨Or.inr hex, List.chain'_singleton _⟩
      · simp only [List.map_cons, List.map_nil, List.getLastD_cons]
        rfl

lemma cleansePassAux_chain (exec : List Nat → Int) :
    ∀ (n : Nat) (U : List Nat) (idx : Nat) (ch : Bool),
      List.Chain' (cleanseStep exec)
        (U :: ((cleansePassAux exec U idx n ch).2.2.map
          CleanseTrial.after)) ∧
      ((cleansePassAux exec U idx n ch).2.2.map
        CleanseTrial.after).getLastD U = (cleansePassAux exec U idx n ch).1
    := by
  intro n
  induction n with
  | zero => intro U idx ch; exact ⟨List.chain'_singleton U, rfl⟩
  | succ n ih =>
    intro U idx ch
    simp only [cleansePassAux]
    split_ifs with hskip
    · exact ih U (idx + 1) ch
    · obtain ⟨hbc, hbl⟩ := cleanseByte_chain exec idx (U.getD idx 0)
        replacementBytes U (set_getD_self U idx)
      obtain ⟨hrc, hrl⟩ := ih (cleanseByte exec U idx (U.getD idx 0)
        replacementBytes).1 (idx + 1)
        (ch || (cleanseByte exec U idx (U.getD idx 0)
          replacementBytes).2.1)
      simp only [List.map_append]
      have hglue := chain_glue (cleanseStep exec)
        ((cleanseByte exec U idx (U.getD idx 0) replacementBytes).2.2.map
          CleanseTrial.after)
        ((cleansePassAux exec (cleanseByte exec U idx (U.getD idx 0)
            replacementBytes).1 (idx + 1) n
            (ch || (cleanseByte exec U idx (U.getD idx 0)
              replacementBytes).2.1)).2.2.map CleanseTrial.after)
        U (cleanseByte exec U idx (U.getD idx 0) replacementBytes).1
        hbc hbl hrc
      exact ⟨hglue.1, by rw [hglue.2, hrl]⟩

lemma cleanseAttempts_chain (exec : List Nat → Int) :
    ∀ (k : Nat) (U : List Nat),
      List.Chain' (cleanseStep exec)
        (U :: ((cleanseAttempts exec k U).2.map CleanseTrial.after)) ∧
      ((cleanseAttempts exec k U).2.map CleanseTrial.after).getLastD U =
        (cleanseAttempts exec k U).1 := by
  intro k
  induction k with
  | zero => intro U; exact ⟨List.chain'_singleton U, rfl⟩
  | succ k ih =>
    intro U
    obtain ⟨hpc, hpl⟩ := cleansePassAux_chain exec U.length U 0 false
    simp only [cleanseAttempts]
    split_ifs with hch
    · obtain ⟨hrc, hrl⟩ := ih (cleansePass exec U).1
      simp only [List.map_append]
      have := chain_glue (cleanseStep exec)
        ((cleansePass exec U).2.2.map CleanseTrial.after)
        ((cleanseAttempts exec k (cleansePass exec U).1).2.map
          CleanseTrial.after) U (cleansePass exec U).1 hpc hpl hrc
      exact ⟨this.1, by rw [this.2, hrl]⟩
    · exact ⟨hpc, hpl⟩

/-- C4: throughout crash cleansing, after every write-and-run step the
buffer either equals its value before the step, or the base command run
on its current contents exits non-zero (the crash is still reproduced);
every committed replacement preserves the crash. The sequence of buffer
states (initial buffer followed by the buffer after each step) is chained
by that relation. -/
theorem cleanse_crash_preserved (exec : List Nat → Int) (U : List Nat) :
    List.Chain' (fun a b => b = a ∨ exec b ≠ 0)
      (U :: (cleanseCrashInput exec U).2.map CleanseTrial.after) :=
  (cleanseAttempts_chain exec 5 U).1

/-! ## Worker pool (FuzzerDriver.cpp lines 237-258 and 295-314)

```
static void WorkerThread(const Command &BaseCmd, std::atomic<unsigned> *Counter,
                         unsigned NumJobs, std::atomic<bool> *HasErrors) {
  while (true) {
    unsigned C = (*Counter)++;
    if (C >= NumJobs) break;
    ... run job C ...
  }
}
```
The interleaving semantics: a pool state carries the shared counter, the
list of job IDs claimed by each of the `W` workers, and whether each
worker is still in its loop. A schedule is a list of worker indices; each
entry lets that worker perform one loop iteration, whose shared-memory
content is the single atomic fetch-and-increment (the subprocess run
between two fetches touches no shared state relevant to the claim).
`C = (*Counter)++` always increments, even on the exiting fetch. An entry
naming a finished (or out-of-range) worker is a no-op, so the theorem
quantifies over every interleaving. -/
structure PoolState where
  counter : Nat
  claimed : List (List Nat)
  active : List Bool
deriving DecidableEq

def initPool (W : Nat) : PoolState :=
  ⟨0, List.replicate W [], List.replicate W true⟩

def wstep (J : Nat) (s : PoolState) (w : Nat) : PoolState :=
  if s.active.getD w false then
    if J ≤ s.counter then
      ⟨s.counter + 1, s.claimed, s.active.set w false⟩
    else
      ⟨s.counter + 1, s.claimed.set w (s.claimed.getD w [] ++ [s.counter]),
        s.active⟩
  else s

def runPool (W J : Nat) (sched : List Nat) : PoolState :=
  sched.foldl (wstep J) (initPool W)

/-- The pool invariant: the lists have length `W`; the multiset of all
claimed job IDs is exactly `{0, …, min counter J − 1}`; and as soon as
any worker has exited, the counter has reached `J`. -/
def PoolInv (W J : Nat) (s : PoolState) : Prop :=
  s.claimed.length = W ∧ s.active.length = W ∧
  s.claimed.flatten.Perm (List.range (min s.counter J)) ∧
  (∀ w, s.active.getD w true = false → J ≤ s.counter)

lemma flatten_set_append (c : Nat) :
    ∀ (l : List (List Nat)) (w : Nat), w < l.length →
      (l.set w (l.getD w [] ++ [c])).flatten.Perm (l.flatten ++ [c]) := by
  intro l
  induction l with
  | nil => intro w hw; simp at hw
  | cons x xs ih =>
    intro w hw
    match w with
    | 0 =>
      simp only [List.set, List.getD_cons_zero, List.flatten_cons]
      rw [List.append_assoc, List.append_assoc]
      exact List.Perm.append_left x List.perm_append_comm
    | w + 1 =>
      simp only [List.set, List.getD_cons_succ, List.flatten_cons]
      rw [List.append_assoc]
      exact List.Perm.append_left x (ih w (by simpa using hw))

lemma getD_bool_lt_length (l : List Bool) (w : Nat) (d : Bool)
    (h : l.getD w d ≠ d) : w < l.length := by
  by_contra hw
  push_neg at hw
  rw [List.getD_eq_getElem?_getD, List.getElem?_eq_none hw] at h
  exact absurd rfl h

lemma flatten_replicate_nil (n : Nat) :
    (List.replicate n ([] : List Nat)).flatten = [] := by
  induction n with
  | zero => rfl
  | succ n ih => simp [List.replicate_succ, ih]

lemma poolInv_init (W J : Nat) : PoolInv W J (initPool W) := by
  refine ⟨by simp [initPool], by simp [initPool], ?_, ?_⟩
  · simp only [initPool, flatten_replicate_nil]
    rw [show min 0 J = 0 from by omega]
    exact List.Perm.refl _
  · intro w hw
    exfalso
    have hlt : w < (initPool W).active.length :=
      getD_bool_lt_length _ w true (by rw [hw]; exact Bool.false_ne_true)
    simp only [initPool, List.length_replicate] at hlt
    simp only [initPool] at hw
    rw [List.getD_eq_getElem?_getD, List.getElem?_replicate,
      if_pos hlt] at hw
    exact absurd hw (by simp)

lemma poolInv_step (W J : Nat) (s : PoolState) (w : Nat)
    (h : PoolInv W J s) : PoolInv W J (wstep J s w) := by
  obtain ⟨hcl, hal, hperm, hdone⟩ := h
  unfold wstep
  split_ifs with hact hctr
  · refine ⟨by simpa using hcl, by simpa using hal, ?_, ?_⟩
    · show s.claimed.flatten.Perm (List.range (min (s.counter + 1) J))
      have hmin : min (s.counter + 1) J = min s.counter J := by omega
      rw [hmin]
      exact hperm
    · intro w' _
      show J ≤ s.counter + 1
      omega
  · push_neg at hctr
    have hwlt : w < s.claimed.length := by
      rw [hcl, ← hal]
      exact getD_bool_lt_length s.active w false (by rw [hact]; simp)
    refine ⟨by simpa using hcl, by simpa using hal, ?_, ?_⟩
    · show (s.claimed.set w
          (s.claimed.getD w [] ++ [s.counter])).flatten.Perm
        (List.range (min (s.counter + 1) J))
      have h1 := flatten_set_append s.counter s.claimed w hwlt
      have h2 : (s.claimed.flatten ++ [s.counter]).Perm
          (List.range (min s.counter J) ++ [s.counter]) :=
        hperm.append_right [s.counter]
      have h3 : min s.counter J = s.counter := by omega
      have h4 : min (s.counter + 1) J = s.counter + 1 := by omega
      rw [h4, List.range_succ]
      refine (h1.trans h2).trans ?_
      rw [h3]
    · intro w' hw'
      have hj := hdone w' hw'
      show J ≤ s.counter + 1
      omega
  · exact ⟨hcl, hal, hperm, hdone⟩

lemma poolInv_run (W J : Nat) (sched : List Nat) :
    PoolInv W J (runPool W J sched) := by
  suffices h : ∀ (l : List Nat) (s : PoolState), PoolInv W J s →
      PoolInv W J (l.foldl (wstep J) s) by
    exact h sched (initPool W) (poolInv_init W J)
  intro l
  induction l with
  | nil => intro s hs; exact hs
  | cons x xs ih =>
    intro s hs
    exact ih _ (poolInv_step W J s x hs)

/-- C5: in worker mode with `W ≥ 1` workers and `J` jobs, in every
interleaving of the worker threads that runs until all workers have
exited their loop, the job IDs claimed across all workers (by atomic
fetch-and-increment of the shared counter, a worker stopping once the
fetched value is `≥ J`) form exactly the set `{0, …, J−1}`, each ID
claimed exactly once (the joined claim lists are a permutation of
`range J`, so each ID is claimed by exactly one worker exactly once). -/
theorem worker_jobs_exactly_once (W J : Nat) (sched : List Nat)
    (hW : 0 < W)
    (hdone : (runPool W J sched).active.all (fun b => !b) = true) :
    (runPool W J sched).claimed.flatten.Perm (List.range J) := by
  obtain ⟨hcl, hal, hperm, hd⟩ := poolInv_run W J sched
  have h0 : (runPool W J sched).active.getD 0 true = false := by
    rcases hx : (runPool W J sched).active with _ | ⟨b, bs⟩
    · rw [hx] at hal
      simp only [List.length_nil] at hal
      omega
    · have hb : b = false := by
        rw [hx] at hdone
        have := List.all_eq_true.1 hdone b (by simp)
        simpa using this
      simp [hb]
  have hJ := hd 0 h0
  have hmin : min (runPool W J sched).counter J = J := by omega
  rw [hmin] at hperm
  exact hperm

/-- Witness for `worker_jobs_exactly_once`: one worker, two jobs,
schedule letting the worker iterate three times (claim 0, claim 1, fetch
2 and exit); the claimed IDs are a permutation of `{0, 1}`. -/
theorem worker_jobs_exactly_once_witness :
    (runPool 1 2 [0, 0, 0]).claimed.flatten.Perm (List.range 2) :=
  worker_jobs_exactly_once 1 2 [0, 0, 0] (by decide) (by decide)

/-! ## AnalyzeDictionary (FuzzerDriver.cpp lines 559-623)

```
std::vector<int> Scores(Dict.size());
std::vector<int> Usages(Dict.size());
for (auto &C : Corpus) {
  F->ExecuteCallback(C.data(), C.size());
  ... snapshot InitialFeatures ...
  for (size_t i = 0; i < Dict.size(); ++i) {
    std::vector<uint8_t> Data = C;
    auto StartPos = std::search(Data.begin(), Data.end(),
                                Dict[i].begin(), Dict[i].end());
    if (StartPos == Data.end())
      continue;
    ++Usages[i];
    while (StartPos != Data.end()) {
      auto EndPos = StartPos + Dict[i].size();
      for (auto It = StartPos; It != EndPos; ++It)
        *It ^= 0xFF;
      StartPos = std::search(EndPos, Data.end(), ...);
    }
    ... snapshot ModifiedFeatures ...
    if (InitialFeatures == ModifiedFeatures) --Scores[i];
    else Scores[i] += 2;
  }
}
for (size_t i = 0; i < Dict.size(); ++i) {
  if (Scores[i] > 0) continue;
  ... print token i with its score and usage count ...
}
```
Coverage collection (`ExecuteCallback` + `TPC.CollectFeatures`) is an
external collaborator, modelled by a feature function
`feat : List Nat → List Nat` giving the feature snapshot of running the
target on a buffer. `std::search` returns the first occurrence of the
token or `Data.end()`: `firstOccur` returns the first index at which the
token is a prefix of the remaining buffer, and `searchPos` encodes
"not found" as `data.length`, including the corner case of an empty token
in an empty buffer (where `std::search` returns `end` = `begin`). -/
def firstOccur (pat : List Nat) : List Nat → Option Nat
  | [] => if pat.isPrefixOf [] then some 0 else none
  | d :: rest =>
    if pat.isPrefixOf (d :: rest) then some 0
    else (firstOccur pat rest).map (fun i => i + 1)

def searchPos (pat data : List Nat) : Nat :=
  (firstOccur pat data).getD data.length

def containsTok (pat data : List Nat) : Bool :=
  decide (searchPos pat data < data.length)

/-- The masking `while` loop: replace each (leftmost, non-overlapping)
occurrence of `pat` with its bytes XORed against `0xFF`, resuming the
search after the replaced occurrence. Fuel bounds the iteration count
(any non-empty token makes progress, so `data.length + 1` never runs
out; an empty token on a non-empty buffer loops forever in the C++). -/
def maskFrom (pat : List Nat) : Nat → List Nat → List Nat
  | 0, d => d
  | f + 1, d =>
    if h : searchPos pat d < d.length then
      d.take (searchPos pat d) ++
        ((d.drop (searchPos pat d)).take pat.length).map (fun b => b ^^^ 255)
        ++ maskFrom pat f (d.drop (searchPos pat d + pat.length))
    else d

def maskData (pat data : List Nat) : List Nat :=
  maskFrom pat (data.length + 1) data

/-- Scores and usage counts, one entry per dictionary token. -/
structure DictStats where
  scores : List Int
  usages : List Int
deriving DecidableEq

/-- The body of the inner `for (i)` loop for one unit `c` (with feature
snapshot `f0` of the unmodified unit) at token index `i`. -/
def dictUpdate (feat : List Nat → List Nat) (dict : List (List Nat))
    (c : List Nat) (f0 : List Nat) (st : DictStats) (i : Nat) : DictStats :=
  if containsTok (dict.getD i []) c then
    { usages := st.usages.set i (st.usages.getD i 0 + 1),
      scores := st.scores.set i
        (if f0 = feat (maskData (dict.getD i []) c)
         then st.scores.getD i 0 - 1
         else st.scores.getD i 0 + 2) }
  else st

def analyzeUnit (feat : List Nat → List Nat) (dict : List (List Nat))
    (c : List Nat) (st : DictStats) : DictStats :=
  (List.range dict.length).foldl (dictUpdate feat dict c (feat c)) st

/-- The whole analyzer: fold over the corpus, then the printed "useless"
list — the indices whose score is not strictly positive (`Scores[i] > 0`
tokens are skipped as useful). -/
def analyzeDictionary (feat : List Nat → List Nat)
    (dict corpus : List (List Nat)) : DictStats × List Nat :=
  let st := corpus.foldl (fun st c => analyzeUnit feat dict c st)
    ⟨List.replicate dict.length 0, List.replicate dict.length 0⟩
  (st, (List.range dict.length).filter (fun i => st.scores.getD i 0 ≤ 0))

lemma isPrefixOf_exists_append :
    ∀ (p l : List Nat), p.isPrefixOf l = true → ∃ t, p ++ t = l := by
  intro p
  induction p with
  | nil => intro l _; exact ⟨l, rfl⟩
  | cons a as ih =>
    intro l h
    match l with
    | [] => exact absurd h (by simp [List.isPrefixOf])
    | b :: bs =>
      simp only [List.isPrefixOf, Bool.and_eq_true, beq_iff_eq] at h
      obtain ⟨t, ht⟩ := ih bs h.2
      exact ⟨t, by rw [List.cons_append, ht, h.1]⟩

lemma firstOccur_isPrefixOf (pat : List Nat) :
    ∀ (data : List Nat) (i : Nat), firstOccur pat data = some i →
      pat.isPrefixOf (data.drop i) = true := by
  intro data
  induction data with
  | nil =>
    intro i h
    simp only [firstOccur] at h
    split_ifs at h with hp
    · injection h with h1
      subst h1
      exact hp
  | cons d rest ih =>
    intro i h
    simp only [firstOccur] at h
    split_ifs at h with hp
    · injection h with h1
      subst h1
      exact hp
    · rcases hf : firstOccur pat rest with _ | j
      · rw [hf] at h
        exact absurd h (by simp)
      · rw [hf] at h
        have h1 : j + 1 = i := by
          have h2 : some (j + 1) = some i := h
          injection h2
        subst h1
        exact ih j hf

lemma containsTok_infix_of_true (pat data : List Nat)
    (h : containsTok pat data = true) : pat <:+: data := by
  have hlt : searchPos pat data < data.length := of_decide_eq_true h
  rcases hf : firstOccur pat data with _ | i
  · exfalso
    unfold searchPos at hlt
    rw [hf] at hlt
    exact absurd hlt (by simp)
  · have hpre := firstOccur_isPrefixOf pat data i hf
    obtain ⟨t, ht⟩ := isPrefixOf_exists_append pat (data.drop i) hpre
    exact ⟨data.take i, t, by
      rw [List.append_assoc, ht, List.take_append_drop]⟩

lemma dictUpdate_fold_preserve (feat : List Nat → List Nat)
    (dict : List (List Nat)) (c f0 : List Nat) (i : Nat)
    (hnc : containsTok (dict.getD i []) c = false) :
    ∀ (L : List Nat) (st : DictStats),
      ((L.foldl (dictUpdate feat dict c f0) st).scores.getD i 0 =
        st.scores.getD i 0) ∧
      ((L.foldl (dictUpdate feat dict c f0) st).usages.getD i 0 =
        st.usages.getD i 0) := by
  intro L
  induction L with
  | nil => intro st; exact ⟨rfl, rfl⟩
  | cons j L ih =>
    intro st
    simp only [List.foldl_cons]
    have hstep :
        ((dictUpdate feat dict c f0 st j).scores.getD i 0 =
          st.scores.getD i 0) ∧
        ((dictUpdate feat dict c f0 st j).usages.getD i 0 =
          st.usages.getD i 0) := by
      by_cases hji : j = i
      · subst hji
        unfold dictUpdate
        rw [if_neg (by rw [hnc]; exact Bool.false_ne_true)]
        exact ⟨rfl, rfl⟩
      · unfold dictUpdate
        split_ifs with hc hf0
        · exact ⟨getD_set_ne _ _ _ _ hji, getD_set_ne _ _ _ _ hji⟩
        · exact ⟨getD_set_ne _ _ _ _ hji, getD_set_ne _ _ _ _ hji⟩
        · exact ⟨rfl, rfl⟩
    obtain ⟨h1, h2⟩ := ih (dictUpdate feat dict c f0 st j)
    exact ⟨h1.trans hstep.1, h2.trans hstep.2⟩

lemma corpus_fold_preserve (feat : List Nat → List Nat)
    (dict : List (List Nat)) (i : Nat) :
    ∀ (corpus : List (List Nat)) (st : DictStats),
      (∀ u ∈ corpus, containsTok (dict.getD i []) u = false) →
      (((corpus.foldl (fun st c => analyzeUnit feat dict c st)
          st).scores.getD i 0 = st.scores.getD i 0) ∧
       ((corpus.foldl (fun st c => analyzeUnit feat dict c st)
          st).usages.getD i 0 = st.usages.getD i 0)) := by
  intro corpus
  induction corpus with
  | nil => intro st _; exact ⟨rfl, rfl⟩
  | cons c cs ih =>
    intro st hall
    simp only [List.foldl_cons]
    have hstep := dictUpdate_fold_preserve feat dict c (feat c) i
      (hall c (List.mem_cons_self c cs)) (List.range dict.length) st
    obtain ⟨h1, h2⟩ := ih (analyzeUnit feat dict c st)
      (fun u hu => hall u (List.mem_cons_of_mem c hu))
    exact ⟨h1.trans hstep.1, h2.trans hstep.2⟩

/-- C9: a dictionary token that does not occur as a substring of any
corpus unit finishes the analysis with usage count 0 and score 0, and
(having score ≤ 0) its index appears in the printed "useless" list; only
tokens with strictly positive score are treated as useful. -/
theorem analyzeDictionary_unused_token (feat : List Nat → List Nat)
    (dict corpus : List (List Nat)) (i : Nat) (hi : i < dict.length)
    (habs : ∀ u ∈ corpus, ¬ (dict.get ⟨i, hi⟩ <:+: u)) :
    (analyzeDictionary feat dict corpus).1.usages.getD i 0 = 0 ∧
    (analyzeDictionary feat dict corpus).1.scores.getD i 0 = 0 ∧
    i ∈ (analyzeDictionary feat dict corpus).2 := by
  have hgd : dict.getD i [] = dict.get ⟨i, hi⟩ := by
    rw [List.getD_eq_getElem?_getD, List.getElem?_eq_getElem hi]
    rfl
  have hnc : ∀ u ∈ corpus, containsTok (dict.getD i []) u = false := by
    intro u hu
    rcases hb : containsTok (dict.getD i []) u with _ | _
    · rfl
    · exfalso
      refine habs u hu ?_
      rw [← hgd]
      exact containsTok_infix_of_true _ u hb
  have hinit0 :
      (List.replicate dict.length (0 : Int)).getD i 0 = 0 := by
    rw [List.getD_eq_getElem?_getD, List.getElem?_replicate, if_pos hi]
    rfl
  obtain ⟨hs, hu⟩ := corpus_fold_preserve feat dict i corpus
    ⟨List.replicate dict.length 0, List.replicate dict.length 0⟩ hnc
  have hscore :
      (analyzeDictionary feat dict corpus).1.scores.getD i 0 = 0 := by
    show ((corpus.foldl (fun st c => analyzeUnit feat dict c st)
      ⟨List.replicate dict.length 0, List.replicate dict.length 0⟩
      ).scores.getD i 0) = 0
    rw [hs]
    exact hinit0
  have husage :
      (analyzeDictionary feat dict corpus).1.usages.getD i 0 = 0 := by
    show ((corpus.foldl (fun st c => analyzeUnit feat dict c st)
      ⟨List.replicate dict.length 0, List.replicate dict.length 0⟩
      ).usages.getD i 0) = 0
    rw [hu]
    exact hinit0
  refine ⟨husage, hscore, ?_⟩
  refine List.mem_filter.2 ⟨List.mem_range.2 hi, ?_⟩
  rw [decide_eq_true_eq]
  show (analyzeDictionary feat dict corpus).1.scores.getD i 0 ≤ 0
  rw [hscore]

/-- Witness for `analyzeDictionary_unused_token`: token `[1]` does not
occur in the single corpus unit `[2]`; its usage and score are 0 and its
index 0 is in the useless list. -/
theorem analyzeDictionary_unused_token_witness :
    (analyzeDictionary (fun _ => []) [[1]] [[2]]).1.usages.getD 0 0 = 0 ∧
    (analyzeDictionary (fun _ => []) [[1]] [[2]]).1.scores.getD 0 0 = 0 ∧
    0 ∈ (analyzeDictionary (fun _ => []) [[1]] [[2]]).2 :=
  analyzeDictionary_unused_token (fun _ => []) [[1]] [[2]] 0 (by decide)
    (by decide)

/-! ## Flag registry and ParseFlags (FuzzerDriver.cpp lines 49-90, 148-224)

`FlagDescriptions` is a table of rows, each carrying a name, a default,
and exactly one non-null storage pointer that determines the flag's kind
(int, unsigned, string) — or none for deprecated flags. The `Flags`
struct has one field per non-deprecated flag; it is modelled as a map
from flag names to stored values (`FlagState`), each row's backing field
being addressed by the row's name (names are unique in the registry, the
spec's "exactly one entry and exactly one backing field" invariant).

```
static void ParseFlags(const std::vector<std::string> &Args,
                       const ExternalFunctions *EF) {
  for (size_t F = 0; F < kNumFlags; F++) {
    if (FlagDescriptions[F].IntFlag)
      *FlagDescriptions[F].IntFlag = FlagDescriptions[F].Default;
    if (FlagDescriptions[F].UIntFlag)
      *FlagDescriptions[F].UIntFlag =
          static_cast<unsigned int>(FlagDescriptions[F].Default);
    if (FlagDescriptions[F].StrFlag)
      *FlagDescriptions[F].StrFlag = nullptr;
  }
  if (EF->LLVMFuzzerCustomMutator) {
    Flags.len_control = 0;
    Printf("INFO: found LLVMFuzzerCustomMutator (%p). "
           "Disabling -len_control by default.\n", ...);
  }
  Inputs = new std::vector<std::string>;
  for (size_t A = 1; A < Args.size(); A++) {
    if (ParseOneFlag(Args[A].c_str())) {
      if (Flags.ignore_remaining_args)
        break;
      continue;
    }
    Inputs->push_back(Args[A]);
  }
}
```
`ParseOneFlag` returns false only for tokens not starting with `'-'`
(those become Inputs); `--token` is ignored with a warning; otherwise the
registry is scanned in order for the first row whose name matches
(`FlagValue`), and the value is stored: `MyStol` then `static_cast<int>`
for int rows (modelled by `toInt32`), `std::stoul` then
`static_cast<unsigned int>` for unsigned rows (a failing `stoul` throws
out of the driver, modelled by `aborted`), the raw tail for string rows;
matching a deprecated row only prints. Unknown flags warn and are
discarded. -/
inductive FlagKind
  | intK
  | uintK
  | strK
  | deprecatedK
deriving DecidableEq

structure FlagDescr where
  name : List Char
  default : Int
  kind : FlagKind
deriving DecidableEq

inductive FlagVal
  | intV (v : Int)
  | uintV (v : Nat)
  | strV (s : Option (List Char))
deriving DecidableEq

/-- The `Flags` struct: the stored value of each registered flag's
backing field, addressed by flag name (`none` = no such field). -/
def FlagState : Type := List Char → Option FlagVal

def setFlag (st : FlagState) (n : List Char) (v : FlagVal) : FlagState :=
  fun m => if m = n then some v else st m

/-- `static_cast<int>` of a `long`: reduction into `[-2^31, 2^31)`. -/
def toInt32 (v : Int) : Int := (v + 2 ^ 31) % 2 ^ 32 - 2 ^ 31

/-- `static_cast<unsigned int>` of a signed `int` default. -/
def toUInt32 (v : Int) : Nat := (v % 2 ^ 32).toNat

/-- Model of the C++ standard library's `std::stoul` in base 10 followed
by `static_cast<unsigned int>`: an optional sign, then a non-empty digit
run (parsing stops at the first non-digit); no leading digit run means
`std::invalid_argument` escapes `ParseOneFlag` and kills the process
(`none`); `'-'` negates modulo 2^64 (`unsigned long`). -/
def stoulModel (s : List Char) : Option Nat :=
  let body : Bool × List Char :=
    match s with
    | c :: rest =>
      if c = '-' then (true, rest)
      else if c = '+' then (false, rest)
      else (false, c :: rest)
    | [] => (false, [])
  let ds := body.2.takeWhile (fun c => decide (48 ≤ c.toNat ∧ c.toNat ≤ 57))
  if ds = [] then none
  else
    let v := ds.foldl (fun a d => a * 10 + (d.toNat - 48)) 0
    some (if body.1 then (2 ^ 64 - v % 2 ^ 64) % 2 ^ 64 else v % 2 ^ 64)

/-- Initial content of a row's backing field (the first loop of
`ParseFlags`): the declared default, widened for unsigned rows, null for
string rows; deprecated rows have no field. -/
def initValue (d : FlagDescr) : Option FlagVal :=
  match d.kind with
  | .intK => some (.intV d.default)
  | .uintK => some (.uintV (toUInt32 d.default))
  | .strK => some (.strV none)
  | .deprecatedK => none

def initFlags (R : List FlagDescr) : FlagState :=
  R.foldl (fun st d =>
    match initValue d with
    | some v => setFlag st d.name v
    | none => st) (fun _ => none)

/-- Value stored by `ParseOneFlag` for row `d` when a token carries the
value text `v` (`none` for a failing `stoul` or a deprecated row, which
stores nothing). -/
def parsedValue (d : FlagDescr) (v : List Char) : Option FlagVal :=
  match d.kind with
  | .intK => some (.intV (toInt32 (myStol v)))
  | .uintK => (stoulModel v).map (fun u => .uintV (u % 2 ^ 32))
  | .strK => some (.strV (some v))
  | .deprecatedK => none

inductive ParseOneResult
  | notFlag
  | handled (st : FlagState)
  | aborted

/-- The stores performed once `FlagValue` matched row `d`. -/
def applyFlag (st : FlagState) (d : FlagDescr) (v : List Char) :
    ParseOneResult :=
  match d.kind with
  | .intK => .handled (setFlag st d.name (.intV (toInt32 (myStol v))))
  | .uintK =>
    match stoulModel v with
    | some u => .handled (setFlag st d.name (.uintV (u % 2 ^ 32)))
    | none => .aborted
  | .strK => .handled (setFlag st d.name (.strV (some v)))
  | .deprecatedK => .handled st

/-- The registry scan `for (F = 0; F < kNumFlags; F++)`: first row whose
name matches wins; no match is a warned-and-ignored unknown flag. -/
def findAndSet (st : FlagState) (p : List Char) :
    List FlagDescr → ParseOneResult
  | [] => .handled st
  | d :: R =>
    match flagValue p d.name with
    | some v => applyFlag st d v
    | none => findAndSet st p R

def parseOneFlag (R : List FlagDescr) (st : FlagState) (p : List Char) :
    ParseOneResult :=
  match p with
  | [] => .notFlag
  | c :: rest =>
    if c = '-' then
      match rest with
      | c2 :: _ => if c2 = '-' then .handled st else findAndSet st p R
      | [] => findAndSet st p R
    else .notFlag

def lenControlName : List Char := "len_control".toList

def ignoreRemainingName : List Char := "ignore_remaining_args".toList

/-- Reading an int field for a truthiness test (`if (Flags.…)`). -/
def getIntFlag (st : FlagState) (n : List Char) : Int :=
  match st n with
  | some (.intV v) => v
  | _ => 0

structure ParseResult where
  flags : FlagState
  inputs : List (List Char)

/-- The argument walk `for (A = 1; A < Args.size(); A++)`: flags are
dispatched to `ParseOneFlag` (stopping at `ignore_remaining_args`),
other tokens are appended to `Inputs`. -/
def parseArgsLoop (R : List FlagDescr) :
    FlagState → List (List Char) → List (List Char) → Option ParseResult
  | st, inputs, [] => some ⟨st, inputs⟩
  | st, inputs, a :: rest =>
    match parseOneFlag R st a with
    | .notFlag => parseArgsLoop R st (inputs ++ [a]) rest
    | .aborted => none
    | .handled st' =>
      if getIntFlag st' ignoreRemainingName ≠ 0 then some ⟨st', inputs⟩
      else parseArgsLoop R st' inputs rest

/-- `ParseFlags(Args, EF)`: defaults, then the `LLVMFuzzerCustomMutator`
forcing of `len_control = 0`, then the walk over `Args[1..]`. -/
def parseFlags (R : List FlagDescr) (args : List (List Char))
    (hasCustomMutator : Bool) : Option ParseResult :=
  let st0 := initFlags R
  let st1 := if hasCustomMutator
    then setFlag st0 lenControlName (.intV 0) else st0
  parseArgsLoop R st1 [] args.tail

/-- Modelled from the spec: the registry contents (`FuzzerFlags.def`,
pulled into `FlagDescriptions` by preprocessor inclusion) are not part of
the delivered source file. This fragment declares the flags the driver
file manipulates directly. The spec's parsing order step 2 — "If the
external `LLVMFuzzerCustomMutator` is present, force `len_control = 0`
before processing user flags", logged as "Disabling -len_control by
default" — implies `len_control` is an int flag whose declared default
is non-zero (upstream libFuzzer declares 100). -/
def modelRegistry : List FlagDescr :=
  [⟨"len_control".toList, 100, .intK⟩,
   ⟨"verbosity".toList, 1, .intK⟩,
   ⟨"runs".toList, -1, .intK⟩,
   ⟨"merge".toList, 0, .intK⟩,
   ⟨"ignore_remaining_args".toList, 0, .intK⟩,
   ⟨"seed".toList, 0, .uintK⟩,
   ⟨"exact_artifact_path".toList, 0, .strK⟩,
   ⟨"use_clang_coverage".toList, 0, .deprecatedK⟩]

lemma initValue_isSome (d : FlagDescr) (h : d.kind ≠ FlagKind.deprecatedK) :
    ∃ v, initValue d = some v := by
  rcases hk : d.kind with _ | _ | _ | _
  · exact ⟨.intV d.default, by simp [initValue, hk]⟩
  · exact ⟨.uintV (toUInt32 d.default), by simp [initValue, hk]⟩
  · exact ⟨.strV none, by simp [initValue, hk]⟩
  · exact absurd hk h

lemma initFold_not_mem :
    ∀ (R : List FlagDescr) (st : FlagState) (n : List Char),
      n ∉ R.map FlagDescr.name →
      (R.foldl (fun st d =>
        match initValue d with
        | some v => setFlag st d.name v
        | none => st) st) n = st n := by
  intro R
  induction R with
  | nil => intro st n _; rfl
  | cons r R ih =>
    intro st n hn
    simp only [List.map_cons, List.mem_cons, not_or] at hn
    simp only [List.foldl_cons]
    rw [ih _ n hn.2]
    rcases hiv : initValue r with _ | v
    · rfl
    · simp [setFlag, hn.1]

lemma initFold_mem :
    ∀ (R : List FlagDescr) (st : FlagState) (d : FlagDescr), d ∈ R →
      (R.map FlagDescr.name).Nodup → d.kind ≠ FlagKind.deprecatedK →
      (R.foldl (fun st d =>
        match initValue d with
        | some v => setFlag st d.name v
        | none => st) st) d.name = initValue d := by
  intro R
  induction R with
  | nil => intro st d hd _ _; simp at hd
  | cons r R ih =>
    intro st d hd hnd hdk
    simp only [List.map_cons, List.nodup_cons] at hnd
    rcases List.mem_cons.1 hd with hdr | hdR
    · subst hdr
      simp only [List.foldl_cons]
      rw [initFold_not_mem R _ d.name hnd.1]
      obtain ⟨v, hv⟩ := initValue_isSome d hdk
      rw [hv]
      simp [setFlag]
    · simp only [List.foldl_cons]
      exact ih _ d hdR hnd.2 hdk

lemma initFlags_mem (R : List FlagDescr) (d : FlagDescr) (hd : d ∈ R)
    (hnd : (R.map FlagDescr.name).Nodup)
    (hdk : d.kind ≠ FlagKind.deprecatedK) :
    initFlags R d.name = initValue d :=
  initFold_mem R _ d hd hnd hdk

lemma findAndSet_cases :
    ∀ (R : List FlagDescr) (st : FlagState) (p : List Char),
      findAndSet st p R = .handled st ∨ findAndSet st p R = .aborted ∨
      ∃ d ∈ R, ∃ v vl, flagValue p d.name = some v ∧
        parsedValue d v = some vl ∧
        findAndSet st p R = .handled (setFlag st d.name vl) := by
  intro R
  induction R with
  | nil => intro st p; exact Or.inl rfl
  | cons d R ih =>
    intro st p
    have hunf : findAndSet st p (d :: R) =
        match flagValue p d.name with
        | some v => applyFlag st d v
        | none => findAndSet st p R := rfl
    rcases hfv : flagValue p d.name with _ | v
    · rw [hunf, hfv]
      rcases ih st p with h | h | ⟨d0, hd0, v, vl, h1, h2, h3⟩
      · exact Or.inl h
      · exact Or.inr (Or.inl h)
      · exact Or.inr (Or.inr ⟨d0, List.mem_cons_of_mem d hd0, v, vl,
          h1, h2, h3⟩)
    · rw [hunf, hfv]
      rcases hk : d.kind with _ | _ | _ | _
      · refine Or.inr (Or.inr ⟨d, List.mem_cons_self d R, v,
          .intV (toInt32 (myStol v)), hfv, ?_, ?_⟩)
        · simp [parsedValue, hk]
        · simp [applyFlag, hk]
      · rcases hsu : stoulModel v with _ | u
        · refine Or.inr (Or.inl ?_)
          simp [applyFlag, hk, hsu]
        · refine Or.inr (Or.inr ⟨d, List.mem_cons_self d R, v,
            .uintV (u % 2 ^ 32), hfv, ?_, ?_⟩)
          · simp [parsedValue, hk, hsu]
          · simp [applyFlag, hk, hsu]
      · refine Or.inr (Or.inr ⟨d, List.mem_cons_self d R, v,
          .strV (some v), hfv, ?_, ?_⟩)
        · simp [parsedValue, hk]
        · simp [applyFlag, hk]
      · refine Or.inl ?_
        simp [applyFlag, hk]

lemma parseOneFlag_cases (R : List FlagDescr) (st : FlagState)
    (p : List Char) :
    parseOneFlag R st p = .notFlag ∨ parseOneFlag R st p = .handled st ∨
    parseOneFlag R st p = .aborted ∨
    ∃ d ∈ R, ∃ v vl, flagValue p d.name = some v ∧
      parsedValue d v = some vl ∧
      parseOneFlag R st p = .handled (setFlag st d.name vl) := by
  match p with
  | [] => exact Or.inl rfl
  | c :: rest =>
    by_cases hc : c = '-'
    · subst hc
      match rest with
      | [] =>
        have hunf : parseOneFlag R st ['-'] = findAndSet st ['-'] R := rfl
        rw [hunf]
        rcases findAndSet_cases R st ['-'] with h | h | h
        · exact Or.inr (Or.inl h)
        · exact Or.inr (Or.inr (Or.inl h))
        · exact Or.inr (Or.inr (Or.inr h))
      | c2 :: rest2 =>
        by_cases hc2 : c2 = '-'
        · subst hc2
          exact Or.inr (Or.inl rfl)
        · have hunf : parseOneFlag R st ('-' :: c2 :: rest2) =
              findAndSet st ('-' :: c2 :: rest2) R := by
            simp [parseOneFlag, hc2]
          rw [hunf]
          rcases findAndSet_cases R st ('-' :: c2 :: rest2) with h | h | h
          · exact Or.inr (Or.inl h)
          · exact Or.inr (Or.inr (Or.inl h))
          · exact Or.inr (Or.inr (Or.inr h))
    · refine Or.inl ?_
      simp [parseOneFlag, hc]

/-- The loop invariant for `ParseFlags`: each non-deprecated registered
flag's field holds its initial value, or a value parsed from some token
of argv, or is the custom-mutator-forced `len_control = 0`. -/
def FlagInv (R : List FlagDescr) (args : List (List Char)) (hasCM : Bool)
    (st : FlagState) : Prop :=
  ∀ d ∈ R, d.kind ≠ FlagKind.deprecatedK →
    st d.name = initValue d ∨
    (∃ tok ∈ args, ∃ v, flagValue tok d.name = some v ∧
      st d.name = parsedValue d v) ∨
    (d.name = lenControlName ∧ hasCM = true ∧
      st d.name = some (FlagVal.intV 0))

lemma flagInv_step (R : List FlagDescr) (args : List (List Char))
    (hasCM : Bool) (hnd : (R.map FlagDescr.name).Nodup)
    (st st' : FlagState) (a : List Char) (ha : a ∈ args)
    (hstep : parseOneFlag R st a = .handled st')
    (hinv : FlagInv R args hasCM st) : FlagInv R args hasCM st' := by
  rcases parseOneFlag_cases R st a with h | h | h |
    ⟨d0, hd0, v, vl, hfv, hpv, h⟩
  · rw [h] at hstep
    exact absurd hstep (by intro hx; cases hx)
  · rw [h] at hstep
    have hst : st = st' := by injection hstep
    rw [← hst]
    exact hinv
  · rw [h] at hstep
    exact absurd hstep (by intro hx; cases hx)
  · rw [h] at hstep
    have hst : setFlag st d0.name vl = st' := by injection hstep
    intro d hd hdk
    by_cases hname : d.name = d0.name
    · have hdd : d = d0 := List.inj_on_of_nodup_map hnd hd hd0 hname
      subst hdd
      refine Or.inr (Or.inl ⟨a, ha, v, hfv, ?_⟩)
      rw [← hst, hpv]
      simp [setFlag]
    · have hpres : st' d.name = st d.name := by
        rw [← hst]
        simp [setFlag, hname]
      rw [hpres]
      exact hinv d hd hdk

lemma parseArgsLoop_inv (R : List FlagDescr) (args : List (List Char))
    (hasCM : Bool) (hnd : (R.map FlagDescr.name).Nodup) :
    ∀ (rest : List (List Char)) (st : FlagState)
      (inputs : List (List Char)) (pr : ParseResult),
      (∀ tok ∈ rest, tok ∈ args) → FlagInv R args hasCM st →
      parseArgsLoop R st inputs rest = some pr →
      FlagInv R args hasCM pr.flags := by
  intro rest
  induction rest with
  | nil =>
    intro st inputs pr _ hinv hres
    have hpr : (⟨st, inputs⟩ : ParseResult) = pr := by injection hres
    rw [← hpr]
    exact hinv
  | cons a rest ih =>
    intro st inputs pr hsub hinv hres
    have hunf : parseArgsLoop R st inputs (a :: rest) =
        match parseOneFlag R st a with
        | .notFlag => parseArgsLoop R st (inputs ++ [a]) rest
        | .aborted => none
        | .handled st' =>
          if getIntFlag st' ignoreRemainingName ≠ 0 then some ⟨st', inputs⟩
          else parseArgsLoop R st' inputs rest := rfl
    rw [hunf] at hres
    rcases hpo : parseOneFlag R st a with _ | st' | _
    · rw [hpo] at hres
      have hres' : parseArgsLoop R st (inputs ++ [a]) rest = some pr := hres
      exact ih st (inputs ++ [a]) pr
        (fun tok htok => hsub tok (List.mem_cons_of_mem a htok)) hinv hres'
    · rw [hpo] at hres
      have hres' : (if getIntFlag st' ignoreRemainingName ≠ 0
          then some (⟨st', inputs⟩ : ParseResult)
          else parseArgsLoop R st' inputs rest) = some pr := hres
      have hinv' := flagInv_step R args hasCM hnd st st' a
        (hsub a (List.mem_cons_self a rest)) hpo hinv
      split_ifs at hres' with hira
      · have hpr : (⟨st', inputs⟩ : ParseResult) = pr := by injection hres'
        rw [← hpr]
        exact hinv'
      · exact ih st' inputs pr
          (fun tok htok => hsub tok (List.mem_cons_of_mem a htok))
          hinv' hres'
    · rw [hpo] at hres
      have hres' : (none : Option ParseResult) = some pr := hres
      exact absurd hres' (by intro hx; cases hx)

lemma flagInv_start (R : List FlagDescr) (args : List (List Char))
    (hasCM : Bool) (hnd : (R.map FlagDescr.name).Nodup) :
    FlagInv R args hasCM
      (if hasCM then setFlag (initFlags R) lenControlName (.intV 0)
       else initFlags R) := by
  intro d hd hdk
  cases hasCM with
  | false =>
    refine Or.inl ?_
    simp only [Bool.false_eq_true, if_false]
    exact initFlags_mem R d hd hnd hdk
  | true =>
    by_cases hn : d.name = lenControlName
    · refine Or.inr (Or.inr ⟨hn, rfl, ?_⟩)
      simp [setFlag, hn]
    · refine Or.inl ?_
      simp only [if_true]
      rw [show setFlag (initFlags R) lenControlName (.intV 0) d.name =
          initFlags R d.name from by simp [setFlag, hn]]
      exact initFlags_mem R d hd hnd hdk

/-- C1 amended: after `ParseFlags(argv, EF)` returns, every registered
(non-deprecated) flag field holds its declared initial value, or a value
parsed from a token `-name=<v>` of argv — except `len_control`, which,
when `LLVMFuzzerCustomMutator` is present, is forced to 0 before user
flags are processed (and so holds 0 unless some `-len_control=<v>` token
overrides it). In particular, an int flag whose name appears in no argv
token equals its default, unless it is `len_control` with the custom
mutator present, in which case it equals 0. -/
theorem parseFlags_default_or_parsed (R : List FlagDescr)
    (hnd : (R.map FlagDescr.name).Nodup) (args : List (List Char))
    (hasCM : Bool) (pr : ParseResult)
    (hres : parseFlags R args hasCM = some pr)
    (d : FlagDescr) (hd : d ∈ R)
    (hdk : d.kind ≠ FlagKind.deprecatedK) :
    (pr.flags d.name = initValue d ∨
     (∃ tok ∈ args, ∃ v, flagValue tok d.name = some v ∧
        pr.flags d.name = parsedValue d v) ∨
     (d.name = lenControlName ∧ hasCM = true ∧
        pr.flags d.name = some (FlagVal.intV 0))) ∧
    ((∀ tok ∈ args, flagValue tok d.name = none) →
      pr.flags d.name = initValue d ∨
      (d.name = lenControlName ∧ hasCM = true ∧
        pr.flags d.name = some (FlagVal.intV 0))) := by
  have hinv : FlagInv R args hasCM pr.flags := by
    refine parseArgsLoop_inv R args hasCM hnd args.tail _ [] pr ?_
      (flagInv_start R args hasCM hnd) ?_
    · intro tok htok
      exact List.mem_of_mem_tail htok
    · exact hres
  have hmain := hinv d hd hdk
  refine ⟨hmain, ?_⟩
  intro hno
  rcases hmain with h | ⟨tok, htok, v, hfv, _⟩ | h
  · exact Or.inl h
  · rw [hno tok htok] at hfv
    exact Option.noConfusion hfv
  · exact Or.inr h

/-- Witness for `parseFlags_default_or_parsed`: the model registry, no
custom mutator, argv = `["p"]` with no flag tokens; `len_control` holds
its default. -/
theorem parseFlags_default_or_parsed_witness :
    ∃ pr, parseFlags modelRegistry [['p']] false = some pr ∧
      ((pr.flags lenControlName =
          initValue ⟨lenControlName, 100, FlagKind.intK⟩ ∨
        (∃ tok ∈ [[('p' : Char)]], ∃ v,
          flagValue tok lenControlName = some v ∧
          pr.flags lenControlName =
            parsedValue ⟨lenControlName, 100, FlagKind.intK⟩ v) ∨
        (lenControlName = lenControlName ∧ false = true ∧
          pr.flags lenControlName = some (FlagVal.intV 0))) ∧
       ((∀ tok ∈ [[('p' : Char)]], flagValue tok lenControlName = none) →
        pr.flags lenControlName =
          initValue ⟨lenControlName, 100, FlagKind.intK⟩ ∨
        (lenControlName = lenControlName ∧ false = true ∧
          pr.flags lenControlName = some (FlagVal.intV 0)))) := by
  cases hres : parseFlags modelRegistry [['p']] false with
  | none =>
    exfalso
    have hs : (parseFlags modelRegistry [['p']] false).isSome = true := rfl
    rw [hres] at hs
    exact absurd hs (by simp)
  | some pr =>
    exact ⟨pr, rfl, parseFlags_default_or_parsed modelRegistry (by decide)
      [['p']] false pr hres ⟨lenControlName, 100, FlagKind.intK⟩
      (by decide) (by decide)⟩

/-- C1 counterexample: with `LLVMFuzzerCustomMutator` present and an argv
containing no `-len_control=<v>` token, `Flags.len_control` ends up
holding 0, which is neither its declared default (100) nor a value parsed
from any argv token: `ParseFlags` forces `len_control = 0` before
processing user flags, so the claim fails for the int flag `len_control`
at `argv = ["p"]` with the custom mutator present. -/
theorem parseFlags_len_control_counterexample :
    ¬ (∀ (hasCM : Bool) (args : List (List Char)) (pr : ParseResult),
        parseFlags modelRegistry args hasCM = some pr →
        ∀ d ∈ modelRegistry, d.kind = FlagKind.intK →
        (∀ tok ∈ args, flagValue tok d.name = none) →
        pr.flags d.name = some (FlagVal.intV d.default)) := by
  intro hclaim
  cases hres : parseFlags modelRegistry [['p']] true with
  | none =>
    have hs : (parseFlags modelRegistry [['p']] true).isSome = true := rfl
    rw [hres] at hs
    exact absurd hs (by simp)
  | some pr =>
    have h100 := hclaim true [['p']] pr hres
      ⟨lenControlName, 100, FlagKind.intK⟩ (by decide) rfl
      (by
        intro tok htok
        have htok' : tok = ['p'] := by simpa using htok
        subst htok'
        decide)
    have h0 : pr.flags lenControlName = some (FlagVal.intV 0) := by
      have hx : Option.map (fun pr : ParseResult =>
          pr.flags lenControlName)
          (parseFlags modelRegistry [['p']] true) =
          some (some (FlagVal.intV 0)) := rfl
      rw [hres] at hx
      simp only [Option.map_some', Option.some.injEq] at hx
      exact hx
    rw [h100] at h0
    have : (100 : Int) = 0 := by
      injection h0 with h1
      injection h1
    exact absurd this (by decide)

end FuzzerDriver
